import Mathlib

/-!
Verification development for the retrieval-augmented context engine of the
Gen-ai-Backend repository (files `app/rag_utils.py` and `app/code_parser.py`).

Python strings are modelled as `List Char`.  The chunking stage of
`create_rag_vectorstore` delegates to LangChain's
`RecursiveCharacterTextSplitter(chunk_size=1200, chunk_overlap=200)`; that
splitter is a pure, deterministic text algorithm and is embedded here
faithfully (constructor check, `_split_text_with_regex`, `_merge_splits`,
recursive `_split_text` with the default separators `["\n\n", "\n", " ", ""]`,
`keep_separator=True`, `strip_whitespace=True`, `length_function=len`).
External effectful collaborators (the Chroma vector store, the embedding
model, the filesystem, the regex engine) are modelled abstractly: the code
under verification is exactly the repository's own logic around them.
-/

set_option maxRecDepth 8000

/-! ### Python string primitives -/

/-- Characters removed by Python's `str.strip()` (ASCII whitespace; the
repository's inputs are source files, for which this is the relevant set). -/
def isPySpace (c : Char) : Bool :=
  c = ' ' || c = '\t' || c = '\n' || c = '\r' || c = '\x0b' || c = '\x0c'

/-- Python `str.strip()`: drop leading and trailing whitespace. -/
def pyStrip (l : List Char) : List Char :=
  ((l.dropWhile isPySpace).reverse.dropWhile isPySpace).reverse

/-- Python `str.upper()` (ASCII). -/
def pyUpper (l : List Char) : List Char :=
  l.map Char.toUpper

/-- A one-character string, as produced by Python's `list(text)`. -/
def pySingle (c : Char) : List Char := [c]

/-- Python `separator.join(docs)`. -/
def joinSep (sep : List Char) : List (List Char) → List Char
  | [] => []
  | [p] => p
  | p :: q :: ps => p ++ sep ++ joinSep sep (q :: ps)

/-- Python `re.search(re.escape(pat), text)` succeeds iff `pat` occurs as a
contiguous substring of `text` (always true for the empty pattern). -/
def isSubstring (pat : List Char) : List Char → Bool
  | [] => pat.isEmpty
  | c :: rest => pat.isPrefixOf (c :: rest) || isSubstring pat rest

/-- Python `re.split` on the escaped literal separator `s0 :: srest`: the
parts of `text` between non-overlapping, leftmost occurrences of the
separator.  The fuel argument only drives structural recursion; it is
sufficient whenever `fuel ≥ text.length` (each step consumes at least one
character). -/
def splitOnSeqF (s0 : Char) (srest : List Char) : Nat → List Char → List (List Char)
  | _, [] => [[]]
  | 0, _ :: _ => [[]]
  | fuel + 1, c :: t =>
    if (s0 :: srest).isPrefixOf (c :: t) then
      [] :: splitOnSeqF s0 srest fuel (t.drop srest.length)
    else
      match splitOnSeqF s0 srest fuel t with
      | [] => [[c]]
      | p :: ps => (c :: p) :: ps

/-- Python `re.split("(" + re.escape(sep) + ")", text)` without the captured
separators: the parts of `text` between separator occurrences. -/
def splitOnSeq (s0 : Char) (srest : List Char) (text : List Char) : List (List Char) :=
  splitOnSeqF s0 srest text.length text

/-- Python `str.replace(old, new)` for a nonempty `old = o0 :: orest`:
split on every occurrence and re-join with `new`. -/
def pyReplace (o0 : Char) (orest : List Char) (new : List Char) (s : List Char) : List Char :=
  joinSep new (splitOnSeq o0 orest s)

/-! ### LangChain `RecursiveCharacterTextSplitter`, as called by
`create_rag_vectorstore` (`app/rag_utils.py`, line 11) -/

/-- The validation in `TextSplitter.__init__`: raises `ValueError` iff
`chunk_overlap > chunk_size` (no other constraint is checked). -/
def textSplitterCheck (chunk_size chunk_overlap : Int) : Except (List Char) Unit :=
  if chunk_overlap > chunk_size then
    Except.error ("Got a larger chunk overlap than chunk size, should be smaller.".toList)
  else Except.ok ()

/-- `_split_text_with_regex(text, re.escape(sep), keep_separator=True)`:
split on the separator, re-attach each separator occurrence to the front of
the following part, and drop empty pieces.  With `sep = []` this is the
`list(text)` branch. -/
def splitKeepSep (sep text : List Char) : List (List Char) :=
  match sep with
  | [] => (text.map pySingle).filter (fun p => decide (p ≠ []))
  | s0 :: srest =>
    (match splitOnSeq s0 srest text with
     | [] => []
     | p :: ps => p :: ps.map (fun q => sep ++ q)).filter (fun p => decide (p ≠ []))

/-- The separator-selection loop at the top of `_split_text`: scan the
separator list; stop at the first empty separator (keeping `new_separators`
empty) or at the first separator occurring in `text` (keeping the remaining
list); default to the last separator when nothing matches. -/
def chooseSepAux (dflt : List Char) : List (List Char) → List Char → List Char × List (List Char)
  | [], _ => (dflt, [])
  | s :: rest, text =>
    if s = [] then ([], [])
    else if isSubstring s text then (s, rest)
    else chooseSepAux dflt rest text

/-- Separator selection for `_split_text`, defaulting to `separators[-1]`. -/
def chooseSep (seps : List (List Char)) (text : List Char) : List Char × List (List Char) :=
  chooseSepAux ((seps.getLast?).getD []) seps text

/-- `TextSplitter._join_docs` with `strip_whitespace=True`: join, strip, and
return `none` for the empty result. -/
def joinDocs (sep : List Char) (docs : List (List Char)) : Option (List Char) :=
  let text := pyStrip (joinSep sep docs)
  if text = [] then none else some text

/-- The inner `while` loop of `TextSplitter._merge_splits`: pop pieces from
the front of `current_doc` (`total` tracks the joined length, which stays
equal to the weight of `current_doc`, so the truncated subtraction agrees
with Python's exact arithmetic; the `[]` case is unreachable because the
loop condition fails once `total = 0`). -/
def mergeWhile (cs co sepLen dLen : Nat) : List (List Char) → Nat → List (List Char) × Nat
  | [], total => ([], total)
  | p :: cur, total =>
    if total > co ∨ (total + dLen + sepLen > cs ∧ 0 < total) then
      mergeWhile cs co sepLen dLen cur (total - (p.length + if cur = [] then 0 else sepLen))
    else (p :: cur, total)

/-- The main loop of `TextSplitter._merge_splits`: accumulate pieces into
`current_doc`; when the next piece would overflow `chunk_size`, emit the
joined (stripped, non-empty) document and pop the front down to the overlap
window before appending the piece. -/
def mergeLoop (cs co : Nat) (sep : List Char) :
    List (List Char) → List (List Char) → Nat → List (List Char)
  | [], cur, _ =>
    match joinDocs sep cur with
    | some d => [d]
    | none => []
  | d :: rest, cur, total =>
    if total + d.length + (if cur = [] then 0 else sep.length) > cs then
      (if cur = [] then [] else
        match joinDocs sep cur with
        | some doc => [doc]
        | none => []) ++
      (let st := if cur = [] then (cur, total) else mergeWhile cs co sep.length d.length cur total
       mergeLoop cs co sep rest (st.1 ++ [d])
         (st.2 + d.length + (if st.1 = [] then 0 else sep.length)))
    else
      mergeLoop cs co sep rest (cur ++ [d])
        (total + d.length + (if cur = [] then 0 else sep.length))

/-- `TextSplitter._merge_splits(splits, separator)`. -/
def mergeSplits (cs co : Nat) (sep : List Char) (splits : List (List Char)) : List (List Char) :=
  mergeLoop cs co sep splits [] 0

/-- The good/bad-piece loop of `RecursiveCharacterTextSplitter._split_text`:
collect pieces shorter than `chunk_size` and merge each maximal run; a piece
at least `chunk_size` long is appended raw when no separators remain
(`noRec`), otherwise handled by the recursive call (`handler`).  Merging
uses separator `""` because `keep_separator=True`. -/
def goSplits (cs co : Nat) (handler : List Char → List (List Char)) (noRec : Bool) :
    List (List Char) → List (List Char) → List (List Char)
  | [], good => if good = [] then [] else mergeSplits cs co [] good
  | s :: ss, good =>
    if s.length < cs then goSplits cs co handler noRec ss (good ++ [s])
    else
      (if good = [] then [] else mergeSplits cs co [] good) ++
      (if noRec then [s] else handler s) ++
      goSplits cs co handler noRec ss []

/-- `RecursiveCharacterTextSplitter._split_text(text, separators)`.  The
fuel drives the recursion on ever-shorter separator lists; it is sufficient
whenever `fuel ≥ seps.length`, which the wrapper below guarantees. -/
def splitTextAux (cs co : Nat) : Nat → List (List Char) → List Char → List (List Char)
  | 0, _, _ => []
  | fuel + 1, seps, text =>
    let sn := chooseSep seps text
    goSplits cs co (fun s => splitTextAux cs co fuel sn.2 s) sn.2.isEmpty
      (splitKeepSep sn.1 text) []

/-- The default separator list of `RecursiveCharacterTextSplitter`. -/
def SEPARATORS : List (List Char) := [['\n', '\n'], ['\n'], [' '], []]

/-- `RecursiveCharacterTextSplitter.split_text(text)`. -/
def split_text (cs co : Nat) (text : List Char) : List (List Char) :=
  splitTextAux cs co SEPARATORS.length SEPARATORS text

/-- `TextSplitter.split_documents` ∘ `create_documents`: split every
document's text and concatenate the chunks in order (metadata is empty in
`create_rag_vectorstore`, which builds `Document(page_content=t)` only). -/
def split_documents (cs co : Nat) (texts : List (List Char)) : List (List Char) :=
  texts.flatMap (split_text cs co)

/-- The chunking stage of `create_rag_vectorstore` (`app/rag_utils.py`,
lines 11-13): `RecursiveCharacterTextSplitter(chunk_size=1200,
chunk_overlap=200).split_documents([Document(page_content=t) for t in
code_texts])`.  The subsequent embedding/Chroma ingestion is external. -/
def create_rag_chunks (code_texts : List (List Char)) : List (List Char) :=
  split_documents 1200 200 code_texts

/-! ### `retrieve_rag_context` (`app/rag_utils.py`, lines 25-28) -/

/-- A LangChain document as returned by `similarity_search`. -/
structure LCDocument where
  page_content : List Char

/-- The vector-store handle, abstracted: `similarity_search(query, k)` is
the external Chroma call; it either raises (`Except.error`) or returns a
ranked list of documents.  `k` is an arbitrary Python `int`. -/
structure VectorStore where
  similarity_search : List Char → Int → Except (List Char) (List LCDocument)

/-- `retrieve_rag_context(vectordb, query, k)` (Python default `k=5`):
forwards `query` and `k` unchecked to `similarity_search` and joins the
returned page contents with `"\n\n"`.  Note there is no validation of `k`
anywhere in this function. -/
def retrieve_rag_context (vectordb : VectorStore) (query : List Char) (k : Int) :
    Except (List Char) (List Char) :=
  match vectordb.similarity_search query k with
  | Except.error e => Except.error e
  | Except.ok results => Except.ok (joinSep ['\n', '\n'] (results.map (fun r => r.page_content)))

/-- The spec side of claim C4: the chunk texts joined in ranked order with a
blank-line separator, written as a direct recursion ("blank line between
consecutive chunks"), to be compared with the source's `"\n\n".join`. -/
def blankLineJoin : List (List Char) → List Char
  | [] => []
  | [t] => t
  | t :: u :: ts => t ++ '\n' :: '\n' :: blankLineJoin (u :: ts)

/-! ### `code_parser.py`: `is_text_file`, `extract_code_files` -/

/-- `BINARY_EXTENSIONS` (`app/code_parser.py`, lines 6-8). -/
def BINARY_EXTENSIONS : List (List Char) :=
  [".exe".toList, ".dll".toList, ".so".toList, ".bin".toList, ".class".toList,
   ".jar".toList, ".pyc".toList, ".pyo".toList, ".zip".toList, ".tar".toList,
   ".gz".toList, ".png".toList, ".jpg".toList, ".jpeg".toList, ".gif".toList]

/-- `is_text_file(filename)`: no listed binary extension is a suffix of the
filename (`str.endswith` is suffix testing). -/
def is_text_file (filename : List Char) : Bool :=
  ! BINARY_EXTENSIONS.any (fun ext => ext.isSuffixOf filename)

/-- `os.path.join(a, b)` (POSIX, two components, as used in
`extract_code_files`). -/
def os_path_join (a b : List Char) : List Char :=
  if b.head? = some '/' then b
  else if a = [] ∨ a.getLast? = some '/' then a ++ b
  else a ++ '/' :: b

/-- The dict `{"path": ..., "content": ...}` appended by
`extract_code_files`. -/
structure CodeFile where
  path : List Char
  content : List Char
deriving DecidableEq

/-- The filesystem, abstracted: `path_exists` is `os.path.exists`; `walk`
yields the `(root, files)` pairs of `os.walk` (the `dirs` component is
unused by the source); `getsize` is `os.path.getsize` in bytes and
`read_file` is `open(...).read()` (with `errors="ignore"` already applied);
`none` models a raised `OSError`, which the source's `try/except` turns
into skipping the file. -/
structure FileSystem where
  path_exists : List Char → Bool
  walk : List Char → List (List Char × List (List Char))
  getsize : List Char → Option Nat
  read_file : List Char → Option (List Char)

/-- The body of the inner loop of `extract_code_files` for one directory
entry: skip binary-extension names, files whose size exceeds the limit or
cannot be statted/read (`try/except` → `continue`), and files whose
stripped content is empty; otherwise record the joined path and the
stripped content.  The float comparison `size / (1024*1024) >
max_file_size_mb` is exact (division by a power of two), hence equivalent
to `size > max_file_size_mb * 1048576`. -/
def processFile (fs : FileSystem) (max_file_size_mb : Nat) (root f : List Char) :
    Option CodeFile :=
  let file_path := os_path_join root f
  if ! is_text_file f then none
  else
    match fs.getsize file_path with
    | none => none
    | some bytes =>
      if bytes > max_file_size_mb * (1024 * 1024) then none
      else
        match fs.read_file file_path with
        | none => none
        | some raw =>
          let content := pyStrip raw
          if content = [] then none
          else some ⟨file_path, content⟩

/-- `extract_code_files(repo_path, max_file_size_mb=5)`
(`app/code_parser.py`, lines 14-45). -/
def extract_code_files (fs : FileSystem) (repo_path : List Char)
    (max_file_size_mb : Nat) : List CodeFile :=
  if ! fs.path_exists repo_path then []
  else
    (fs.walk repo_path).flatMap (fun rf =>
      rf.2.filterMap (processFile fs max_file_size_mb rf.1))

/-! ### `code_parser.py`: `extract_endpoints_from_code` -/

/-- The five HTTP methods captured by every endpoint pattern's method
alternation. -/
inductive HttpMethod
  | get
  | post
  | put
  | delete
  | patch
deriving DecidableEq

/-- The lowercase method literal, as captured by the alternation
`(get|post|put|delete|patch)` of the Python/Express/Axios/Ruby/PHP
patterns. -/
def lowerLit : HttpMethod → List Char
  | HttpMethod.get => "get".toList
  | HttpMethod.post => "post".toList
  | HttpMethod.put => "put".toList
  | HttpMethod.delete => "delete".toList
  | HttpMethod.patch => "patch".toList

/-- The uppercase method literal, as captured by the Go pattern's
alternation `(GET|POST|PUT|DELETE|PATCH)`. -/
def upperLit : HttpMethod → List Char
  | HttpMethod.get => "GET".toList
  | HttpMethod.post => "POST".toList
  | HttpMethod.put => "PUT".toList
  | HttpMethod.delete => "DELETE".toList
  | HttpMethod.patch => "PATCH".toList

/-- The title-case stem of the Spring annotation captured by the Java
pattern's alternation `(GetMapping|PostMapping|...)`: the capture equals
`titleLit m ++ "Mapping"`. -/
def titleLit : HttpMethod → List Char
  | HttpMethod.get => "Get".toList
  | HttpMethod.post => "Post".toList
  | HttpMethod.put => "Put".toList
  | HttpMethod.delete => "Delete".toList
  | HttpMethod.patch => "Patch".toList

/-- The `re.findall` results of the eight endpoint patterns on one code
text, abstracted as an oracle.  Each field's type records exactly what the
corresponding pattern's capture groups can produce: a method from the
pattern's alternation and a path (a string without quote characters; the
path content is irrelevant to the claims).  `go_matches` also carries the
first capture `(router|r|app|api)`, which the transform ignores;
`fetch_matches` has a single path capture. -/
structure PatternMatches where
  py_matches : List (HttpMethod × List Char)
  js_matches : List (HttpMethod × List Char)
  axios_matches : List (HttpMethod × List Char)
  fetch_matches : List (List Char)
  java_matches : List (HttpMethod × List Char)
  go_matches : List (List Char × HttpMethod × List Char)
  ruby_matches : List (HttpMethod × List Char)
  php_matches : List (HttpMethod × List Char)

/-- The per-text body of the loop in `extract_endpoints_from_code`: apply
each pattern's transform to its matches and concatenate in source order
(py, js, axios, fetch, java, go, ruby, php). -/
def endpointsOfMatches (pm : PatternMatches) : List (List Char) :=
  pm.py_matches.map (fun m => pyUpper (lowerLit m.1) ++ ' ' :: m.2) ++
  pm.js_matches.map (fun m => pyUpper (lowerLit m.1) ++ ' ' :: m.2) ++
  pm.axios_matches.map (fun m => pyUpper (lowerLit m.1) ++ ' ' :: m.2) ++
  pm.fetch_matches.map (fun p => "GET ".toList ++ p) ++
  pm.java_matches.map (fun m =>
    pyUpper (pyReplace 'M' ("apping".toList) [] (titleLit m.1 ++ "Mapping".toList)) ++ ' ' :: m.2) ++
  pm.go_matches.map (fun m => pyUpper (upperLit m.2.1) ++ ' ' :: m.2.2) ++
  pm.ruby_matches.map (fun m => pyUpper (lowerLit m.1) ++ ' ' :: m.2) ++
  pm.php_matches.map (fun m => pyUpper (lowerLit m.1) ++ ' ' :: m.2)

/-- Python's `<` on strings: lexicographic comparison of code points, with
a proper prefix smaller than any extension. -/
def strLtB : List Char → List Char → Bool
  | _, [] => false
  | [], _ :: _ => true
  | a :: as, b :: bs => if a < b then true else if b < a then false else strLtB as bs

/-- Python's `sorted` on a list of strings: ascending order under string
`<=`.  The source sorts a duplicate-free list (the image of `set`), on
which any sorted permutation is unique, so a standard insertion sort is a
faithful embedding. -/
def pySorted (l : List (List Char)) : List (List Char) :=
  List.insertionSort (fun a b => strLtB b a = false) l

/-- `extract_endpoints_from_code(code_texts)` (`app/code_parser.py`, lines
48-101): accumulate all transforms over all texts, then
`sorted(list(set(endpoints)))`.  `List.dedup` keeps one representative of
each string, which is all `set` contributes to the final sorted value. -/
def extract_endpoints_from_code (matcher : List Char → PatternMatches)
    (code_texts : List (List Char)) : List (List Char) :=
  pySorted ((code_texts.flatMap (fun code => endpointsOfMatches (matcher code))).dedup)

/-! ### Index Store model (claim C8) -/

/-- Modelled from the spec: the Index Store of §4.3 is implemented by the
external Chroma library, which is not part of this repository's source.
Following the spec's words, the Index is the list of `(chunk text,
embedding vector)` entries in insertion order, the similarity metric is an
abstract function of the query vector and an entry's vector, and `search`
ranks entries by descending similarity, breaking ties by insertion order. -/
structure IndexStoreModel where
  similarity : List Int → List Int → Int
  entries : List (List Char × List Int)

/-- Modelled from the spec: `search(query_vector, k)` returns up to `k`
entries (tagged with their insertion index) ranked by descending
similarity, entries of equal similarity ordered by insertion order. -/
def searchModel (st : IndexStoreModel) (v : List Int) (k : Nat) :
    List (Nat × (List Char × List Int)) :=
  (List.insertionSort
    (fun a b : Nat × (List Char × List Int) =>
      st.similarity v b.2.2 < st.similarity v a.2.2 ∨
        (st.similarity v a.2.2 = st.similarity v b.2.2 ∧ a.1 ≤ b.1))
    st.entries.enum).take k

/-! ### Spec-side description of the hard-cut chunk layout (claim C6) -/

/-- The window layout produced by the splitter on boundary-free text:
chunks of `1200` characters starting every `1000` characters, the last
chunk being the remainder.  Fueled structural recursion; sufficient
whenever `fuel ≥ t.length`. -/
def hardSplitF : Nat → List Char → List (List Char)
  | 0, t => [t]
  | fuel + 1, t => if t.length ≤ 1200 then [t] else t.take 1200 :: hardSplitF fuel (t.drop 1000)

/-- The hard-cut chunk layout of a text. -/
def hardSplit (t : List Char) : List (List Char) :=
  hardSplitF t.length t

/-- A vector-store whose backend search returns an empty result for any
query and any `k`. -/
def emptyResultStore : VectorStore := ⟨fun _ _ => Except.ok []⟩

/-- A vector-store whose backend search returns two fixed chunks. -/
def twoChunkStore : VectorStore :=
  ⟨fun _ _ => Except.ok [⟨"def foo(): pass".toList⟩, ⟨"class Bar: pass".toList⟩]⟩

/-- A small concrete filesystem: one root containing a Python file with
whitespace-padded content and a binary. -/
def sampleFS : FileSystem where
  path_exists := fun p => p = "/repo".toList
  walk := fun _ => [("/repo".toList, ["a.py".toList, "b.exe".toList])]
  getsize := fun _ => some 10
  read_file := fun p => if p = "/repo/a.py".toList then some "  code  ".toList else some "x".toList

/-- A concrete oracle: one Python-pattern match in every text. -/
def sampleMatcher : List Char → PatternMatches := fun _ =>
  ⟨[(HttpMethod.get, "/a".toList)], [], [], [], [], [], [], []⟩

/-- Shorthand for the splitter's output on texts it keeps whole: the
stripped text as a single chunk, or no chunk when stripping leaves
nothing. -/
def stripOne (t : List Char) : List (List Char) :=
  if pyStrip t = [] then [] else [pyStrip t]

/-! ### Basic lemmas: joins -/

theorem joinSep_eq_blankLineJoin (l : List (List Char)) :
    joinSep ['\n', '\n'] l = blankLineJoin l := by
  induction l with
  | nil => rfl
  | cons t ts ih =>
    cases ts with
    | nil => rfl
    | cons u us => simp only [joinSep, blankLineJoin] at ih ⊢; rw [ih]; simp

theorem joinSep_nil_flatten (l : List (List Char)) : joinSep [] l = l.flatten := by
  induction l with
  | nil => rfl
  | cons t ts ih =>
    cases ts with
    | nil => simp [joinSep]
    | cons u us => simp only [joinSep, List.flatten_cons] at ih ⊢; rw [ih]; simp

/-! ### Claims C2, C3, C4 -/

/-- C2 counterexample: at `k = 0`, `retrieve_rag_context` returns a result
(the empty string) rather than failing with any error: the function
performs no validation of `k`, and no `InvalidArgumentError` exists in the
code. -/
theorem retrieve_k_zero_returns_result :
    retrieve_rag_context emptyResultStore ("q".toList) 0 = Except.ok [] := rfl

/-- C2 (amended): `retrieve_rag_context` performs no validation of `k`.
For every store and every `k ≤ 0`, whenever the backend's
`similarity_search` returns a result list, `retrieve_rag_context` returns
the joined texts normally; a failure can only originate inside the backend
call, never from an `InvalidArgumentError` raised by this function. -/
theorem retrieve_no_k_validation (db : VectorStore) (q : List Char) (k : Int)
    (_hk : k ≤ 0) (rs : List LCDocument) (h : db.similarity_search q k = Except.ok rs) :
    retrieve_rag_context db q k =
      Except.ok (joinSep ['\n', '\n'] (rs.map (fun r => r.page_content))) := by
  unfold retrieve_rag_context
  rw [h]

theorem retrieve_no_k_validation_witness :
    (0 : Int) ≤ 0 ∧
      retrieve_rag_context emptyResultStore ("q".toList) 0 = Except.ok [] :=
  ⟨le_refl 0, retrieve_no_k_validation emptyResultStore ("q".toList) 0 (le_refl 0) [] rfl⟩

/-- C3 counterexample: at the spec's own scenario `overlap = 1200,
chunk_size = 1200`, the splitter's constructor check passes (no error is
raised), because LangChain's `TextSplitter.__init__` only rejects
`chunk_overlap > chunk_size`. -/
theorem textSplitterCheck_accepts_equal_overlap :
    textSplitterCheck 1200 1200 = Except.ok () := rfl

/-- C3 (amended): the splitter configuration check fails — with a
`ValueError`, the only configuration error in the code — exactly when
`overlap > chunk_size`; `overlap = chunk_size` is accepted, and no
non-negativity constraint is checked.  (The repository itself only ever
constructs the splitter with the hardcoded valid pair `1200/200`.) -/
theorem textSplitterCheck_error_iff (chunk_size chunk_overlap : Int) :
    (∃ e, textSplitterCheck chunk_size chunk_overlap = Except.error e) ↔
      chunk_size < chunk_overlap := by
  unfold textSplitterCheck
  constructor
  · intro ⟨e, he⟩
    by_contra hlt
    rw [if_neg (by exact fun h => hlt h)] at he
    exact Except.noConfusion he
  · intro h
    exact ⟨_, if_pos h⟩

/-- C4: whenever the backend search returns a list of documents,
`retrieve_rag_context` returns exactly their chunk texts joined in ranked
order with a blank-line separator (`"\n\n"`), and in particular an empty
search result yields the empty string and no error. -/
theorem retrieve_rag_context_joins_ranked (db : VectorStore) (q : List Char) (k : Int)
    (docs : List LCDocument) (h : db.similarity_search q k = Except.ok docs) :
    retrieve_rag_context db q k =
        Except.ok (blankLineJoin (docs.map (fun r => r.page_content))) ∧
      (docs = [] → retrieve_rag_context db q k = Except.ok []) := by
  have hmain : retrieve_rag_context db q k =
      Except.ok (blankLineJoin (docs.map (fun r => r.page_content))) := by
    unfold retrieve_rag_context
    rw [h]
    dsimp only
    rw [joinSep_eq_blankLineJoin]
  refine ⟨hmain, fun hnil => ?_⟩
  rw [hmain, hnil]
  rfl

theorem retrieve_rag_context_joins_ranked_witness :
    twoChunkStore.similarity_search ("foo function".toList) 2 =
        Except.ok [⟨"def foo(): pass".toList⟩, ⟨"class Bar: pass".toList⟩] ∧
      retrieve_rag_context twoChunkStore ("foo function".toList) 2 =
        Except.ok ("def foo(): pass\n\nclass Bar: pass".toList) := by
  refine ⟨rfl, ?_⟩
  have h := (retrieve_rag_context_joins_ranked twoChunkStore ("foo function".toList) 2
    [⟨"def foo(): pass".toList⟩, ⟨"class Bar: pass".toList⟩] rfl).1
  rw [h]
  rfl

/-! ### Claim C10 -/

theorem processFile_some (fs : FileSystem) (mb : Nat) (root f : List Char)
    (cf : CodeFile) (h : processFile fs mb root f = some cf) :
    cf.path = os_path_join root f ∧ is_text_file f = true ∧ cf.content ≠ [] ∧
      ∃ raw, fs.read_file (os_path_join root f) = some raw ∧ cf.content = pyStrip raw := by
  simp only [processFile] at h
  split at h
  · exact Option.noConfusion h
  · rename_i hti
    split at h
    · exact Option.noConfusion h
    · rename_i bytes hsz
      split at h
      · exact Option.noConfusion h
      · split at h
        · exact Option.noConfusion h
        · rename_i hbig raw hread
          split at h
          · exact Option.noConfusion h
          · rename_i hc
            cases h
            refine ⟨rfl, ?_, hc, raw, hread, rfl⟩
            simpa using hti

/-- C10: every entry produced by `extract_code_files` has non-empty,
whitespace-stripped content (it is exactly the `strip()` of what was read
from its path) and comes from a walked filename with no listed binary
extension; and a non-existent `repo_path` yields the empty list rather
than an error. -/
theorem extract_code_files_entries (fs : FileSystem) (repo : List Char) (mb : Nat) :
    (fs.path_exists repo = false → extract_code_files fs repo mb = []) ∧
      ∀ cf ∈ extract_code_files fs repo mb,
        cf.content ≠ [] ∧
          (∃ raw, fs.read_file cf.path = some raw ∧ cf.content = pyStrip raw) ∧
          ∃ rf ∈ fs.walk repo, ∃ f ∈ rf.2,
            cf.path = os_path_join rf.1 f ∧ is_text_file f = true := by
  constructor
  · intro h
    unfold extract_code_files
    rw [h]
    rfl
  · intro cf hcf
    unfold extract_code_files at hcf
    by_cases hex : fs.path_exists repo
    · rw [hex] at hcf
      simp only [Bool.not_true, Bool.false_eq_true, if_false] at hcf
      obtain ⟨rf, hrf, hmem⟩ := List.mem_flatMap.mp hcf
      obtain ⟨f, hf, heq⟩ := List.mem_filterMap.mp hmem
      obtain ⟨hpath, htext, hne, raw, hread, hcontent⟩ :=
        processFile_some fs mb rf.1 f cf heq
      exact ⟨hne, ⟨raw, by rw [hpath]; exact hread, hcontent⟩,
        rf, hrf, f, hf, hpath, htext⟩
    · rw [Bool.not_eq_true] at hex
      rw [hex] at hcf
      simp only [Bool.not_false, if_true] at hcf
      exact absurd hcf (List.not_mem_nil cf)

theorem extract_code_files_entries_witness :
    (sampleFS.path_exists ("/nope".toList) = false ∧
        extract_code_files sampleFS ("/nope".toList) 5 = []) ∧
      (⟨"/repo/a.py".toList, "code".toList⟩ : CodeFile) ∈
          extract_code_files sampleFS ("/repo".toList) 5 ∧
        ("code".toList ≠ [] ∧
          (∃ raw, sampleFS.read_file ("/repo/a.py".toList) = some raw ∧
            "code".toList = pyStrip raw) ∧
          ∃ rf ∈ sampleFS.walk ("/repo".toList), ∃ f ∈ rf.2,
            "/repo/a.py".toList = os_path_join rf.1 f ∧ is_text_file f = true) :=
  ⟨⟨by decide, (extract_code_files_entries sampleFS ("/nope".toList) 5).1 (by decide)⟩,
    by decide,
    (extract_code_files_entries sampleFS ("/repo".toList) 5).2
      ⟨"/repo/a.py".toList, "code".toList⟩ (by decide)⟩

/-! ### Claim C9: string order lemmas and endpoint shape -/

theorem strLtB_conn : ∀ a b : List Char, strLtB a b = false → strLtB b a = false → a = b := by
  intro a
  induction a with
  | nil =>
    intro b h1 _
    cases b with
    | nil => rfl
    | cons c cs => simp [strLtB] at h1
  | cons x xs ih =>
    intro b h1 h2
    cases b with
    | nil => simp [strLtB] at h2
    | cons y ys =>
      simp only [strLtB] at h1 h2
      by_cases hxy : x < y
      · rw [if_pos hxy] at h1
        exact Bool.noConfusion h1
      · by_cases hyx : y < x
        · rw [if_pos hyx] at h2
          exact Bool.noConfusion h2
        · have hx : x = y := le_antisymm (not_lt.mp hyx) (not_lt.mp hxy)
          rw [if_neg hxy, if_neg hyx] at h1
          rw [if_neg hyx, if_neg hxy] at h2
          rw [hx, ih ys h1 h2]

theorem strLtB_asymm : ∀ a b : List Char, strLtB a b = true → strLtB b a = false := by
  intro a
  induction a with
  | nil =>
    intro b h
    cases b with
    | nil => exact Bool.noConfusion h
    | cons c cs => rfl
  | cons x xs ih =>
    intro b h
    cases b with
    | nil => exact Bool.noConfusion h
    | cons y ys =>
      simp only [strLtB] at h ⊢
      by_cases hxy : x < y
      · rw [if_neg (lt_asymm hxy), if_pos hxy]
      · by_cases hyx : y < x
        · rw [if_neg hxy, if_pos hyx] at h
          exact Bool.noConfusion h
        · rw [if_neg hxy, if_neg hyx] at h
          rw [if_neg hyx, if_neg hxy]
          exact ih ys h

theorem strLtB_negtrans : ∀ a b c : List Char,
    strLtB b a = false → strLtB c b = false → strLtB c a = false := by
  intro a
  induction a with
  | nil =>
    intro b c _ _
    cases c <;> rfl
  | cons x xs ih =>
    intro b c h1 h2
    cases b with
    | nil => simp [strLtB] at h1
    | cons y ys =>
      cases c with
      | nil => simp [strLtB] at h2
      | cons z zs =>
        simp only [strLtB] at h1 h2 ⊢
        by_cases hyx : y < x
        · rw [if_pos hyx] at h1
          exact Bool.noConfusion h1
        · by_cases hzy : z < y
          · rw [if_pos hzy] at h2
            exact Bool.noConfusion h2
          · have hxy : x ≤ y := not_lt.mp hyx
            have hyz : y ≤ z := not_lt.mp hzy
            have hzx : ¬ z < x := not_lt.mpr (hxy.trans hyz)
            by_cases hxz : x < z
            · rw [if_neg hzx, if_pos hxz]
            · have hzx2 : z ≤ x := not_lt.mp hxz
              have hxeqy : x = y := le_antisymm hxy (hyz.trans hzx2)
              have hyeqz : y = z := le_antisymm hyz (hzx2.trans hxy)
              have hnxy : ¬ x < y := by rw [hxeqy]; exact lt_irrefl y
              have hnyz : ¬ y < z := by rw [hyeqz]; exact lt_irrefl z
              rw [if_neg hyx, if_neg hnxy] at h1
              rw [if_neg hzy, if_neg hnyz] at h2
              rw [if_neg hzx, if_neg hxz]
              exact ih ys zs h1 h2

theorem pySorted_pairwise_lt (l : List (List Char)) (h : l.Nodup) :
    (pySorted l).Pairwise (fun a b => strLtB a b = true) := by
  haveI htot : IsTotal (List Char) (fun a b => strLtB b a = false) := ⟨by
    intro a b
    cases hab : strLtB b a with
    | false => exact Or.inl rfl
    | true => exact Or.inr (strLtB_asymm b a hab)⟩
  haveI htr : IsTrans (List Char) (fun a b => strLtB b a = false) := ⟨by
    intro a b c h1 h2
    exact strLtB_negtrans a b c h1 h2⟩
  have hs : (pySorted l).Pairwise (fun a b => strLtB b a = false) :=
    List.sorted_insertionSort _ l
  have hperm : (pySorted l).Perm l := List.perm_insertionSort _ l
  have hn : (pySorted l).Nodup := hperm.symm.nodup h
  refine (List.Pairwise.and hs hn).imp ?_
  rintro a b ⟨hle, hne⟩
  cases hlt : strLtB a b with
  | true => rfl
  | false => exact absurd (strLtB_conn a b hlt hle) hne

theorem pyUpper_lowerLit (m : HttpMethod) : pyUpper (lowerLit m) = upperLit m := by
  cases m <;> decide

theorem pyUpper_java (m : HttpMethod) :
    pyUpper (pyReplace 'M' ("apping".toList) [] (titleLit m ++ "Mapping".toList)) = upperLit m := by
  cases m <;> decide

theorem pyUpper_upperLit (m : HttpMethod) : pyUpper (upperLit m) = upperLit m := by
  cases m <;> decide

theorem endpointsOfMatches_form (pm : PatternMatches) (e : List Char)
    (he : e ∈ endpointsOfMatches pm) : ∃ m p, e = upperLit m ++ ' ' :: p := by
  unfold endpointsOfMatches at he
  simp only [List.mem_append, List.mem_map] at he
  rcases he with (((((((h1 | h2) | h3) | h4) | h5) | h6) | h7) | h8)
  · obtain ⟨m, _, rfl⟩ := h1
    exact ⟨m.1, m.2, by rw [pyUpper_lowerLit]⟩
  · obtain ⟨m, _, rfl⟩ := h2
    exact ⟨m.1, m.2, by rw [pyUpper_lowerLit]⟩
  · obtain ⟨m, _, rfl⟩ := h3
    exact ⟨m.1, m.2, by rw [pyUpper_lowerLit]⟩
  · obtain ⟨p, _, rfl⟩ := h4
    exact ⟨HttpMethod.get, p, rfl⟩
  · obtain ⟨m, _, rfl⟩ := h5
    exact ⟨m.1, m.2, by rw [pyUpper_java]⟩
  · obtain ⟨m, _, rfl⟩ := h6
    exact ⟨m.2.1, m.2.2, by rw [pyUpper_upperLit]⟩
  · obtain ⟨m, _, rfl⟩ := h7
    exact ⟨m.1, m.2, by rw [pyUpper_lowerLit]⟩
  · obtain ⟨m, _, rfl⟩ := h8
    exact ⟨m.1, m.2, by rw [pyUpper_lowerLit]⟩

/-- C9: for every regex oracle and input list of code texts, the output of
`extract_endpoints_from_code` is duplicate-free and strictly ascending in
Python's lexicographic string order, and every element is
`"METHOD path"` for an uppercase HTTP method from the patterns'
alternations. -/
theorem extract_endpoints_sorted_and_formed (matcher : List Char → PatternMatches)
    (code_texts : List (List Char)) :
    (extract_endpoints_from_code matcher code_texts).Pairwise
        (fun a b => strLtB a b = true) ∧
      ∀ e ∈ extract_endpoints_from_code matcher code_texts,
        ∃ m p, e = upperLit m ++ ' ' :: p := by
  constructor
  · exact pySorted_pairwise_lt _ (List.nodup_dedup _)
  · intro e he
    have h2 : e ∈ (code_texts.flatMap fun code => endpointsOfMatches (matcher code)).dedup :=
      (List.perm_insertionSort _ _).subset he
    have h3 := List.mem_dedup.mp h2
    obtain ⟨code, _, he2⟩ := List.mem_flatMap.mp h3
    exact endpointsOfMatches_form _ e he2

theorem extract_endpoints_sorted_and_formed_witness :
    "GET /a".toList ∈ extract_endpoints_from_code sampleMatcher ["x".toList] ∧
      ∃ m p, "GET /a".toList = upperLit m ++ ' ' :: p :=
  ⟨by decide,
    (extract_endpoints_sorted_and_formed sampleMatcher ["x".toList]).2
      ("GET /a".toList) (by decide)⟩

/-! ### Claim C8 -/

/-- C8: the modelled `search` is deterministic (repeated calls with no
intervening ingest are the same pure application, hence return identical
ordered results), and entries with identical similarity score appear in
insertion order: any entry placed earlier in the output than another entry
of equal score has a strictly smaller insertion index. -/
theorem searchModel_deterministic_stable (st : IndexStoreModel) (v : List Int) (k : Nat) :
    searchModel st v k = searchModel st v k ∧
      (searchModel st v k).Pairwise
        (fun a b => st.similarity v a.2.2 = st.similarity v b.2.2 → a.1 < b.1) := by
  refine ⟨rfl, ?_⟩
  have htot : IsTotal (Nat × (List Char × List Int))
      (fun a b => st.similarity v b.2.2 < st.similarity v a.2.2 ∨
        (st.similarity v a.2.2 = st.similarity v b.2.2 ∧ a.1 ≤ b.1)) := by
    constructor
    intro a b
    rcases lt_trichotomy (st.similarity v a.2.2) (st.similarity v b.2.2) with h | h | h
    · exact Or.inr (Or.inl h)
    · rcases Nat.le_total a.1 b.1 with hle | hle
      · exact Or.inl (Or.inr ⟨h, hle⟩)
      · exact Or.inr (Or.inr ⟨h.symm, hle⟩)
    · exact Or.inl (Or.inl h)
  have htr : IsTrans (Nat × (List Char × List Int))
      (fun a b => st.similarity v b.2.2 < st.similarity v a.2.2 ∨
        (st.similarity v a.2.2 = st.similarity v b.2.2 ∧ a.1 ≤ b.1)) := by
    constructor
    intro a b c hab hbc
    rcases hab with hab | ⟨hab, hab2⟩
    · rcases hbc with hbc | ⟨hbc, _⟩
      · exact Or.inl (hbc.trans hab)
      · exact Or.inl (hbc ▸ hab)
    · rcases hbc with hbc | ⟨hbc, hbc2⟩
      · exact Or.inl (hab ▸ hbc)
      · exact Or.inr ⟨hab.trans hbc, hab2.trans hbc2⟩
  have hs : (searchModel st v k).Pairwise
      (fun a b => st.similarity v b.2.2 < st.similarity v a.2.2 ∨
        (st.similarity v a.2.2 = st.similarity v b.2.2 ∧ a.1 ≤ b.1)) := by
    have hsort := @List.sorted_insertionSort (Nat × (List Char × List Int))
      (fun a b => st.similarity v b.2.2 < st.similarity v a.2.2 ∨
        (st.similarity v a.2.2 = st.similarity v b.2.2 ∧ a.1 ≤ b.1))
      (fun a b => inferInstance) htot htr st.entries.enum
    exact hsort.sublist (List.take_sublist _ _)
  have hnodup : ((searchModel st v k).map Prod.fst).Nodup := by
    have hperm := List.perm_insertionSort
      (fun a b : Nat × (List Char × List Int) =>
        st.similarity v b.2.2 < st.similarity v a.2.2 ∨
          (st.similarity v a.2.2 = st.similarity v b.2.2 ∧ a.1 ≤ b.1))
      st.entries.enum
    have henum : (st.entries.enum.map Prod.fst).Nodup := by
      rw [List.enum_map_fst]
      exact List.nodup_range _
    have hsortn := ((hperm.map Prod.fst).symm).nodup henum
    rw [searchModel, List.map_take]
    exact hsortn.sublist (List.take_sublist _ _)
  have hpne : (searchModel st v k).Pairwise (fun a b => a.1 ≠ b.1) :=
    List.pairwise_map.mp hnodup
  refine (List.Pairwise.and hs hpne).imp ?_
  rintro a b ⟨hr, hne⟩ heq
  rcases hr with hlt | ⟨_, hle⟩
  · rw [heq] at hlt
    exact absurd hlt (lt_irrefl _)
  · exact Nat.lt_of_le_of_ne hle hne

/-! ### Splitter lemmas: pieces reassemble to the text -/

theorem splitOnSeqF_ne_nil : ∀ (fuel : Nat) (s0 : Char) (srest t : List Char),
    splitOnSeqF s0 srest fuel t ≠ [] := by
  intro fuel
  induction fuel with
  | zero => intro s0 srest t; cases t <;> simp [splitOnSeqF]
  | succ f ih =>
    intro s0 srest t
    cases t with
    | nil => simp [splitOnSeqF]
    | cons c t =>
      simp only [splitOnSeqF]
      split
      · simp
      · split
        · simp
        · simp

theorem isPrefixOf_append_drop : ∀ (p l : List Char), p.isPrefixOf l = true →
    l = p ++ l.drop p.length := by
  intro p
  induction p with
  | nil => intro l _; simp
  | cons a p ih =>
    intro l h
    cases l with
    | nil => simp [List.isPrefixOf] at h
    | cons b l =>
      simp only [List.isPrefixOf, Bool.and_eq_true, beq_iff_eq] at h
      obtain ⟨rfl, h2⟩ := h
      simp only [List.length_cons, List.drop_succ_cons, List.cons_append, List.cons.injEq,
        true_and]
      exact ih l h2

theorem isSubstring_subset : ∀ (pat t : List Char), isSubstring pat t = true →
    ∀ c ∈ pat, c ∈ t := by
  intro pat t
  induction t with
  | nil =>
    intro h c hc
    cases pat with
    | nil => simp at hc
    | cons x xs => simp [isSubstring, List.isEmpty] at h
  | cons d t ih =>
    intro h c hc
    simp only [isSubstring, Bool.or_eq_true] at h
    rcases h with h | h
    · rw [isPrefixOf_append_drop pat (d :: t) h]
      exact List.mem_append_left _ hc
    · exact List.mem_cons_of_mem d (ih h c hc)

theorem joinSep_cons_of_ne (sep p : List Char) (ps : List (List Char)) (h : ps ≠ []) :
    joinSep sep (p :: ps) = p ++ sep ++ joinSep sep ps := by
  cases ps with
  | nil => exact absurd rfl h
  | cons q qs => rfl

theorem joinSep_cons_head (sep : List Char) (c : Char) (p : List Char)
    (ps : List (List Char)) :
    joinSep sep ((c :: p) :: ps) = c :: joinSep sep (p :: ps) := by
  cases ps <;> simp [joinSep]

theorem joinSep_splitOnSeqF : ∀ (fuel : Nat) (s0 : Char) (srest t : List Char),
    t.length ≤ fuel → joinSep (s0 :: srest) (splitOnSeqF s0 srest fuel t) = t := by
  intro fuel
  induction fuel with
  | zero =>
    intro s0 srest t h
    have ht : t = [] := List.eq_nil_of_length_eq_zero (Nat.le_zero.mp h)
    subst ht
    rfl
  | succ f ih =>
    intro s0 srest t hlen
    cases t with
    | nil => rfl
    | cons c t =>
      simp only [splitOnSeqF]
      split
      · rename_i hpre
        cases hrec : splitOnSeqF s0 srest f (t.drop srest.length) with
        | nil => exact absurd hrec (splitOnSeqF_ne_nil f s0 srest _)
        | cons p ps =>
          have hj : joinSep (s0 :: srest) ([] :: p :: ps) =
              (s0 :: srest) ++ joinSep (s0 :: srest) (p :: ps) := by
            simp [joinSep]
          rw [hj, ← hrec, ih s0 srest _ (by
            have := List.length_drop srest.length t
            simp only [List.length_cons] at hlen
            omega)]
          have hd := isPrefixOf_append_drop _ _ hpre
          simp only [List.length_cons, List.drop_succ_cons] at hd
          exact hd.symm
      · cases hrec : splitOnSeqF s0 srest f t with
        | nil => exact absurd hrec (splitOnSeqF_ne_nil f s0 srest t)
        | cons p ps =>
          rw [joinSep_cons_head, ← hrec,
            ih s0 srest t (Nat.le_of_succ_le_succ hlen)]

theorem flatten_filter_ne_nil (l : List (List Char)) :
    (l.filter (fun p => decide (p ≠ []))).flatten = l.flatten := by
  induction l with
  | nil => rfl
  | cons x xs ih =>
    by_cases hx : x = []
    · subst hx
      simpa using ih
    · have hcond : (decide (x ≠ [])) = true := by simpa using hx
      rw [List.filter_cons, if_pos hcond, List.flatten_cons, ih]
      rfl

theorem flatten_map_single (t : List Char) : (t.map pySingle).flatten = t := by
  induction t with
  | nil => rfl
  | cons c t ih => simp [pySingle, ih]

theorem joinSep_eq_flatten_map_append (s0 : Char) (srest : List Char) :
    ∀ (ps : List (List Char)) (p : List Char),
      joinSep (s0 :: srest) (p :: ps) = p ++ (ps.map (fun q => s0 :: (srest ++ q))).flatten := by
  intro ps
  induction ps with
  | nil => intro p; simp [joinSep]
  | cons q qs ih =>
    intro p
    rw [joinSep_cons_of_ne (s0 :: srest) p (q :: qs) (by simp)]
    simp only [List.map_cons, List.flatten_cons]
    rw [ih q]
    simp [List.append_assoc]

theorem splitKeepSep_flatten (sep text : List Char) :
    (splitKeepSep sep text).flatten = text := by
  cases sep with
  | nil =>
    unfold splitKeepSep
    rw [flatten_filter_ne_nil, flatten_map_single]
  | cons s0 srest =>
    unfold splitKeepSep
    dsimp only
    cases hrec : splitOnSeq s0 srest text with
    | nil => exact absurd hrec (splitOnSeqF_ne_nil _ s0 srest text)
    | cons p ps =>
      dsimp only
      rw [flatten_filter_ne_nil]
      simp only [List.flatten_cons, List.cons_append]
      rw [← joinSep_eq_flatten_map_append, ← hrec]
      exact joinSep_splitOnSeqF text.length s0 srest text (le_refl _)

theorem splitKeepSep_ne_nil (sep text p : List Char) (hp : p ∈ splitKeepSep sep text) :
    p ≠ [] := by
  unfold splitKeepSep at hp
  cases sep with
  | nil => exact of_decide_eq_true (List.mem_filter.mp hp).2
  | cons s0 srest => exact of_decide_eq_true (List.mem_filter.mp hp).2

theorem mem_flatten_length_le : ∀ (l : List (List Char)) (p : List Char), p ∈ l →
    p.length ≤ l.flatten.length := by
  intro l
  induction l with
  | nil => intro p hp; exact absurd hp (List.not_mem_nil p)
  | cons x xs ih =>
    intro p hp
    simp only [List.flatten_cons, List.length_append]
    rcases List.mem_cons.mp hp with rfl | hp
    · exact Nat.le_add_right _ _
    · exact (ih p hp).trans (Nat.le_add_left _ _)

theorem splitKeepSep_length_le (sep text p : List Char) (hp : p ∈ splitKeepSep sep text) :
    p.length ≤ text.length := by
  have := mem_flatten_length_le _ p hp
  rwa [splitKeepSep_flatten] at this

theorem eq_single_of_long : ∀ (l : List (List Char)) (p : List Char),
    (∀ q ∈ l, q ≠ []) → p ∈ l → l.flatten.length ≤ p.length → l = [p] := by
  intro l
  induction l with
  | nil => intro p _ hp _; exact absurd hp (List.not_mem_nil p)
  | cons x xs ih =>
    intro p hne hp hlen
    simp only [List.flatten_cons, List.length_append] at hlen
    rcases List.mem_cons.mp hp with rfl | hp
    · cases xs with
      | nil => rfl
      | cons y ys =>
        have hy : y.length ≤ (y :: ys).flatten.length := mem_flatten_length_le _ y (by simp)
        have hy0 : y.length = 0 := by omega
        exact absurd (List.eq_nil_of_length_eq_zero hy0) (hne y (by simp))
    · have hple : p.length ≤ xs.flatten.length := mem_flatten_length_le _ p hp
      have hx0 : x.length = 0 := by omega
      exact absurd (List.eq_nil_of_length_eq_zero hx0) (hne x (by simp))

/-! ### Splitter lemmas: strip and small merges -/

theorem dropWhile_eq_self_of_none (p : Char → Bool) (l : List Char)
    (h : ∀ c ∈ l, p c = false) : l.dropWhile p = l := by
  cases l with
  | nil => rfl
  | cons c t =>
    rw [List.dropWhile_cons_of_neg]
    rw [h c (List.mem_cons_self c t)]
    simp

theorem pyStrip_no_space (l : List Char) (h : ∀ c ∈ l, isPySpace c = false) :
    pyStrip l = l := by
  unfold pyStrip
  rw [dropWhile_eq_self_of_none _ _ h,
    dropWhile_eq_self_of_none _ _ (fun c hc => h c (List.mem_reverse.mp hc)),
    List.reverse_reverse]

theorem pyStrip_all_space (l : List Char) (h : ∀ c ∈ l, isPySpace c = true) :
    pyStrip l = [] := by
  unfold pyStrip
  have h1 : l.dropWhile isPySpace = [] := by
    rw [List.dropWhile_eq_nil_iff]
    intro c hc
    rw [h c hc]
  rw [h1]
  rfl

theorem joinDocsList_eq_stripOne (docs : List (List Char)) :
    (match joinDocs [] docs with
      | some d => [d]
      | none => []) = stripOne docs.flatten := by
  unfold joinDocs stripOne
  rw [joinSep_nil_flatten]
  by_cases h : pyStrip docs.flatten = []
  · rw [if_pos h, if_pos h]
  · rw [if_neg h, if_neg h]

theorem mergeLoop_small (cs co : Nat) : ∀ (rest cur : List (List Char)),
    cur.flatten.length + rest.flatten.length ≤ cs →
    mergeLoop cs co [] rest cur cur.flatten.length =
      stripOne (cur.flatten ++ rest.flatten) := by
  intro rest
  induction rest with
  | nil =>
    intro cur h
    simp only [mergeLoop, List.flatten_nil, List.append_nil]
    exact joinDocsList_eq_stripOne cur
  | cons d rest ih =>
    intro cur h
    simp only [mergeLoop, List.length_nil, ite_self]
    rw [if_neg (by
      simp only [List.flatten_cons, List.length_append] at h
      omega)]
    have harg : cur.flatten.length + d.length + 0 = (cur ++ [d]).flatten.length := by
      simp [List.flatten_append]
    rw [harg, ih (cur ++ [d]) (by
      simp only [List.flatten_append, List.flatten_cons, List.length_append,
        List.flatten_nil, List.append_nil] at h ⊢
      omega)]
    simp [List.flatten_append, List.append_assoc]

theorem goSplits_allgood (cs co : Nat) (handler : List Char → List (List Char))
    (noRec : Bool) : ∀ (ss good : List (List Char)), (∀ s ∈ ss, s.length < cs) →
    goSplits cs co handler noRec ss good = mergeSplits cs co [] (good ++ ss) := by
  intro ss
  induction ss with
  | nil =>
    intro good _
    simp only [goSplits, List.append_nil]
    by_cases hg : good = []
    · subst hg
      rfl
    · rw [if_neg hg]
  | cons s ss ih =>
    intro good hlt
    simp only [goSplits]
    rw [if_pos (hlt s (by simp))]
    rw [ih (good ++ [s]) (fun q hq => hlt q (by simp [hq]))]
    simp [List.append_assoc]

theorem chooseSep_spec (seps : List (List Char)) (text : List Char) (hmem : [] ∈ seps) :
    chooseSep seps text = ([], []) ∨
      ∃ s rest, chooseSep seps text = (s, rest) ∧ s ≠ [] ∧ [] ∈ rest ∧
        rest.length < seps.length ∧ isSubstring s text = true ∧ s ∈ seps := by
  unfold chooseSep
  generalize ((seps.getLast?).getD []) = dflt
  induction seps with
  | nil => exact absurd hmem (List.not_mem_nil _)
  | cons s0 rest0 ih =>
    simp only [chooseSepAux]
    by_cases h0 : s0 = []
    · rw [if_pos h0]
      exact Or.inl rfl
    · rw [if_neg h0]
      have hmem2 : [] ∈ rest0 := by
        rcases List.mem_cons.mp hmem with h | h
        · exact absurd h.symm h0
        · exact h
      by_cases hsub : isSubstring s0 text = true
      · rw [if_pos hsub]
        exact Or.inr ⟨s0, rest0, rfl, h0, hmem2, by simp, hsub, by simp⟩
      · rw [if_neg hsub]
        rcases ih hmem2 with h | ⟨s, rest, heq, hne, hm, hlen, hs, hsmem⟩
        · exact Or.inl h
        · refine Or.inr ⟨s, rest, heq, hne, hm, ?_, hs, List.mem_cons_of_mem s0 hsmem⟩
          simp only [List.length_cons]
          omega

theorem splitKeepSep_nil_mem_length (text : List Char) :
    ∀ p ∈ splitKeepSep [] text, p.length = 1 := by
  intro p hp
  unfold splitKeepSep at hp
  have hp2 := (List.mem_filter.mp hp).1
  obtain ⟨c, _, rfl⟩ := List.mem_map.mp hp2
  rfl

theorem splitTextAux_short (cs co : Nat) (hcs : 1 < cs) :
    ∀ (fuel : Nat) (seps : List (List Char)) (text : List Char),
      [] ∈ seps → seps.length ≤ fuel → text.length ≤ cs →
      splitTextAux cs co fuel seps text = stripOne text := by
  intro fuel
  induction fuel with
  | zero =>
    intro seps text hmem hlen _
    have hnil : seps = [] := List.eq_nil_of_length_eq_zero (Nat.le_zero.mp hlen)
    subst hnil
    exact absurd hmem (List.not_mem_nil _)
  | succ f ih =>
    intro seps text hmem hlen htext
    simp only [splitTextAux]
    rcases chooseSep_spec seps text hmem with hc | ⟨s, rest, hc, hne, hm, hlt, hsub, hsmem⟩
    · rw [hc]
      dsimp only
      rw [goSplits_allgood cs co _ _ (splitKeepSep [] text) [] (fun p hp => by
        rw [splitKeepSep_nil_mem_length text p hp]
        exact hcs)]
      simp only [List.nil_append]
      unfold mergeSplits
      have hsmall := mergeLoop_small cs co (splitKeepSep [] text) [] (by
        simpa [splitKeepSep_flatten] using htext)
      simpa [splitKeepSep_flatten] using hsmall
    · rw [hc]
      dsimp only
      by_cases hall : ∀ p ∈ splitKeepSep s text, p.length < cs
      · rw [goSplits_allgood cs co _ _ (splitKeepSep s text) [] hall]
        simp only [List.nil_append]
        unfold mergeSplits
        have hsmall := mergeLoop_small cs co (splitKeepSep s text) [] (by
          simpa [splitKeepSep_flatten] using htext)
        simpa [splitKeepSep_flatten] using hsmall
      · push_neg at hall
        obtain ⟨p, hp, hplen⟩ := hall
        have hsingle : splitKeepSep s text = [p] := by
          apply eq_single_of_long _ p (fun q hq => splitKeepSep_ne_nil s text q hq) hp
          rw [splitKeepSep_flatten]
          omega
        have hptext : p = text := by
          have hf := splitKeepSep_flatten s text
          rw [hsingle] at hf
          simpa using hf
        rw [hsingle]
        simp only [goSplits]
        rw [if_neg (by omega)]
        have hrne : rest.isEmpty = false := by
          cases rest with
          | nil => exact absurd hm (List.not_mem_nil _)
          | cons a b => rfl
        rw [hrne]
        simp only [if_pos rfl, Bool.false_eq_true, if_false, goSplits]
        rw [ih rest p hm (by omega) (by rw [hptext]; exact htext), hptext]
        simp

/-! ### Splitter lemmas: whitespace-only texts -/

theorem mergeWhile_mem (cs co sl dl : Nat) : ∀ (cur : List (List Char)) (total : Nat),
    ∀ x ∈ (mergeWhile cs co sl dl cur total).1, x ∈ cur := by
  intro cur
  induction cur with
  | nil => intro total x hx; simp [mergeWhile] at hx
  | cons p cur ih =>
    intro total x hx
    simp only [mergeWhile] at hx
    split at hx
    · exact List.mem_cons_of_mem p (ih _ x hx)
    · exact hx

theorem joinDocs_allspace (docs : List (List Char))
    (h : ∀ p ∈ docs, ∀ c ∈ p, isPySpace c = true) : joinDocs [] docs = none := by
  unfold joinDocs
  rw [joinSep_nil_flatten, pyStrip_all_space _ (by
    intro c hc
    obtain ⟨p, hp, hcp⟩ := List.mem_flatten.mp hc
    exact h p hp c hcp)]
  rfl

theorem mergeLoop_allspace (cs co : Nat) : ∀ (rest cur : List (List Char)) (total : Nat),
    (∀ p ∈ rest, ∀ c ∈ p, isPySpace c = true) →
    (∀ p ∈ cur, ∀ c ∈ p, isPySpace c = true) →
    mergeLoop cs co [] rest cur total = [] := by
  intro rest
  induction rest with
  | nil =>
    intro cur total _ hcur
    simp [mergeLoop, joinDocs_allspace cur hcur]
  | cons d rest ih =>
    intro cur total hrest hcur
    have hd : ∀ c ∈ d, isPySpace c = true := hrest d (by simp)
    have hrest2 : ∀ p ∈ rest, ∀ c ∈ p, isPySpace c = true :=
      fun p hp => hrest p (by simp [hp])
    simp only [mergeLoop, List.length_nil, ite_self]
    split
    · rw [joinDocs_allspace cur hcur]
      by_cases hc : cur = []
      · rw [if_pos hc, if_pos hc]
        simp only [List.nil_append]
        apply ih _ _ hrest2
        intro p hp
        rcases List.mem_append.mp hp with hp | hp
        · exact hcur p hp
        · rw [List.mem_singleton.mp hp]
          exact hd
      · rw [if_neg hc, if_neg hc]
        simp only [List.nil_append]
        apply ih _ _ hrest2
        intro p hp
        rcases List.mem_append.mp hp with hp | hp
        · exact hcur p (mergeWhile_mem _ _ _ _ cur total p hp)
        · rw [List.mem_singleton.mp hp]
          exact hd
    · apply ih _ _ hrest2
      intro p hp
      rcases List.mem_append.mp hp with hp | hp
      · exact hcur p hp
      · rw [List.mem_singleton.mp hp]
        exact hd

theorem mergeSplits_allspace (cs co : Nat) (l : List (List Char))
    (h : ∀ p ∈ l, ∀ c ∈ p, isPySpace c = true) : mergeSplits cs co [] l = [] :=
  mergeLoop_allspace cs co l [] 0 h (by simp)

theorem goSplits_allspace (cs co : Nat) (handler : List Char → List (List Char))
    (hh : ∀ p, (∀ c ∈ p, isPySpace c = true) → handler p = []) :
    ∀ (ss good : List (List Char)),
      (∀ p ∈ ss, ∀ c ∈ p, isPySpace c = true) →
      (∀ p ∈ good, ∀ c ∈ p, isPySpace c = true) →
      goSplits cs co handler false ss good = [] := by
  intro ss
  induction ss with
  | nil =>
    intro good _ hgood
    simp only [goSplits]
    by_cases hg : good = []
    · rw [if_pos hg]
    · rw [if_neg hg]
      exact mergeSplits_allspace cs co good hgood
  | cons s ss ih =>
    intro good hss hgood
    have hs : ∀ c ∈ s, isPySpace c = true := hss s (by simp)
    have hss2 : ∀ p ∈ ss, ∀ c ∈ p, isPySpace c = true := fun p hp => hss p (by simp [hp])
    simp only [goSplits]
    split
    · apply ih (good ++ [s]) hss2
      intro p hp
      rcases List.mem_append.mp hp with hp | hp
      · exact hgood p hp
      · rw [List.mem_singleton.mp hp]
        exact hs
    · rw [hh s hs, ih [] hss2 (by simp)]
      by_cases hg : good = []
      · rw [if_pos hg]
        simp
      · rw [if_neg hg, mergeSplits_allspace cs co good hgood]
        simp

theorem splitTextAux_allspace (cs co : Nat) (hcs : 1 < cs) :
    ∀ (fuel : Nat) (seps : List (List Char)) (text : List Char),
      [] ∈ seps → seps.length ≤ fuel → (∀ c ∈ text, isPySpace c = true) →
      splitTextAux cs co fuel seps text = [] := by
  intro fuel
  induction fuel with
  | zero =>
    intro seps text hmem hlen _
    have hnil : seps = [] := List.eq_nil_of_length_eq_zero (Nat.le_zero.mp hlen)
    subst hnil
    exact absurd hmem (List.not_mem_nil _)
  | succ f ih =>
    intro seps text hmem hlen hspace
    have hpiece : ∀ sep, ∀ p ∈ splitKeepSep sep text, ∀ c ∈ p, isPySpace c = true := by
      intro sep p hp c hc
      apply hspace
      rw [← splitKeepSep_flatten sep text]
      exact List.mem_flatten.mpr ⟨p, hp, hc⟩
    simp only [splitTextAux]
    rcases chooseSep_spec seps text hmem with hc | ⟨s, rest, hc, hne, hm, hlt, hsub, hsmem⟩
    · rw [hc]
      dsimp only
      rw [goSplits_allgood cs co _ _ (splitKeepSep [] text) [] (fun p hp => by
        rw [splitKeepSep_nil_mem_length text p hp]
        exact hcs)]
      simp only [List.nil_append]
      exact mergeLoop_allspace cs co _ [] 0 (hpiece []) (by simp)
    · rw [hc]
      dsimp only
      have hrne : rest.isEmpty = false := by
        cases rest with
        | nil => exact absurd hm (List.not_mem_nil _)
        | cons a b => rfl
      rw [hrne]
      exact goSplits_allspace cs co _
        (fun p hps => ih rest p hm (by omega) hps)
        (splitKeepSep s text) [] (hpiece s) (by simp)

/-! ### Claims C5 and C7 -/

/-- C5 counterexample: the 3-character document `"hi "` (length ≤ 1200) is
split into exactly one chunk, but the chunk is `"hi"`, not the whole text:
`strip_whitespace=True` removes its trailing blank. -/
theorem split_documents_short_not_whole :
    split_documents 1200 200 ["hi ".toList] = ["hi".toList] ∧
      "hi".toList ≠ "hi ".toList := by
  constructor
  · decide
  · decide

/-- C5 (amended): for every document whose text has length at most
`chunk_size = 1200` and is not whitespace-only, splitting the singleton
list yields exactly one chunk equal to the document's text stripped of
leading and trailing whitespace (Python `str.strip`); a whitespace-only
document instead yields zero chunks (claim C7). -/
theorem split_documents_short_single (text : List Char)
    (h1 : text.length ≤ 1200) (h2 : pyStrip text ≠ []) :
    split_documents 1200 200 [text] = [pyStrip text] := by
  have hmain : split_text 1200 200 text = stripOne text :=
    splitTextAux_short 1200 200 (by omega) SEPARATORS.length SEPARATORS text
      (by decide) (le_refl _) h1
  unfold split_documents
  simp only [List.flatMap_cons, List.flatMap_nil, List.append_nil]
  rw [hmain]
  unfold stripOne
  rw [if_neg h2]

theorem split_documents_short_single_witness :
    ("ab cd".toList.length ≤ 1200 ∧ pyStrip ("ab cd".toList) ≠ []) ∧
      split_documents 1200 200 ["ab cd".toList] = [pyStrip ("ab cd".toList)] :=
  ⟨⟨by decide, by decide⟩,
    split_documents_short_single ("ab cd".toList) (by decide) (by decide)⟩

/-- C7: splitting an empty list of documents yields no chunks, and more
generally splitting any list whose documents are all empty or
whitespace-only yields no chunks. -/
theorem split_text_allspace (t : List Char) (h : ∀ c ∈ t, isPySpace c = true) :
    split_text 1200 200 t = [] :=
  splitTextAux_allspace 1200 200 (by omega) SEPARATORS.length SEPARATORS t
    (by decide) (le_refl _) h

theorem split_documents_whitespace_empty (texts : List (List Char))
    (h : ∀ t ∈ texts, ∀ c ∈ t, isPySpace c = true) :
    split_documents 1200 200 texts = [] := by
  unfold split_documents
  induction texts with
  | nil => rfl
  | cons t ts ih =>
    simp only [List.flatMap_cons]
    rw [split_text_allspace t (h t (by simp))]
    simp only [List.nil_append]
    exact ih (fun u hu => h u (by simp [hu]))

theorem split_documents_whitespace_empty_witness :
    (∀ t ∈ [("" : String).toList, "  \n\t ".toList], ∀ c ∈ t, isPySpace c = true) ∧
      split_documents 1200 200 [("" : String).toList, "  \n\t ".toList] = [] :=
  ⟨by decide,
    split_documents_whitespace_empty [("" : String).toList, "  \n\t ".toList] (by decide)⟩

/-! ### Splitter lemmas: hard cuts on boundary-free text -/

theorem mergeWhileChars : ∀ (v : List Char),
    mergeWhile 1200 200 0 1 (v.map pySingle) v.length =
      ((v.drop (v.length - 200)).map pySingle, min v.length 200) := by
  intro v
  induction v with
  | nil => simp [mergeWhile]
  | cons c v ih =>
    simp only [List.map_cons, mergeWhile, List.length_cons]
    by_cases h : 200 < v.length + 1
    · rw [if_pos (Or.inl h)]
      have harg : v.length + 1 - ((pySingle c).length + if v.map pySingle = [] then 0 else 0) =
          v.length := by
        simp [pySingle]
      rw [harg, ih]
      have hdrop : (c :: v).drop (v.length + 1 - 200) = v.drop (v.length - 200) := by
        have : v.length + 1 - 200 = (v.length - 200) + 1 := by omega
        rw [this, List.drop_succ_cons]
      rw [← hdrop]
      have hmin : min v.length 200 = 200 := by omega
      have hmin2 : min (v.length + 1) 200 = 200 := by omega
      rw [hmin, hmin2]
    · rw [if_neg (by
        push_neg
        constructor
        · omega
        · intro hbig
          omega)]
      have h0 : v.length + 1 - 200 = 0 := by omega
      have hmin : min (v.length + 1) 200 = v.length + 1 := by omega
      rw [h0, hmin]
      simp

theorem hardSplit_short (t : List Char) (h : t.length ≤ 1200) : hardSplit t = [t] := by
  unfold hardSplit
  cases ht : t.length with
  | zero => rfl
  | succ n =>
    simp only [hardSplitF]
    rw [if_pos (by omega)]

theorem hardSplitF_congr : ∀ (f1 f2 : Nat) (t : List Char),
    t.length ≤ f1 → t.length ≤ f2 → hardSplitF f1 t = hardSplitF f2 t := by
  intro f1
  induction f1 with
  | zero =>
    intro f2 t h1 _
    have ht : t = [] := List.eq_nil_of_length_eq_zero (Nat.le_zero.mp h1)
    subst ht
    cases f2 with
    | zero => rfl
    | succ g => simp [hardSplitF]
  | succ f ih =>
    intro f2 t h1 h2
    cases f2 with
    | zero =>
      have ht : t = [] := List.eq_nil_of_length_eq_zero (Nat.le_zero.mp h2)
      subst ht
      simp [hardSplitF]
    | succ g =>
      simp only [hardSplitF]
      by_cases hlen : t.length ≤ 1200
      · rw [if_pos hlen, if_pos hlen]
      · rw [if_neg hlen, if_neg hlen]
        have hd : (t.drop 1000).length ≤ f := by
          rw [List.length_drop]
          omega
        have hd2 : (t.drop 1000).length ≤ g := by
          rw [List.length_drop]
          omega
        rw [ih g (t.drop 1000) hd hd2]

theorem hardSplit_eq (t : List Char) (h : 1200 < t.length) :
    hardSplit t = t.take 1200 :: hardSplit (t.drop 1000) := by
  unfold hardSplit
  cases ht : t.length with
  | zero => omega
  | succ n =>
    simp only [hardSplitF]
    rw [if_neg (by omega)]
    have hd : (t.drop 1000).length ≤ n := by
      rw [List.length_drop]
      omega
    rw [hardSplitF_congr n (t.drop 1000).length (t.drop 1000) hd (le_refl _)]

theorem hardSplit_head (u : List Char) :
    ∀ h : 0 < (hardSplit u).length, (hardSplit u).get ⟨0, h⟩ = u.take 1200 := by
  intro h
  by_cases hu : u.length ≤ 1200
  · rw [List.get_of_eq (hardSplit_short u hu)]
    simp [List.take_of_length_le hu]
  · rw [List.get_of_eq (hardSplit_eq u (by omega))]
    rfl

theorem joinDocs_nospace (w : List Char) (h : ∀ c ∈ w, isPySpace c = false)
    (hne : w ≠ []) : joinDocs [] (w.map pySingle) = some w := by
  unfold joinDocs
  rw [joinSep_nil_flatten, flatten_map_single, pyStrip_no_space w h, if_neg hne]

theorem mergeLoop_chars_hard : ∀ (n : Nat) (rest w : List Char), rest.length ≤ n →
    (∀ c ∈ w, isPySpace c = false) → (∀ c ∈ rest, isPySpace c = false) →
    w.length ≤ 1200 → w ++ rest ≠ [] →
    mergeLoop 1200 200 [] (rest.map pySingle) (w.map pySingle) w.length =
      hardSplit (w ++ rest) := by
  intro n
  induction n with
  | zero =>
    intro rest w hn hw hr hwlen hne
    have hrest : rest = [] := List.eq_nil_of_length_eq_zero (Nat.le_zero.mp hn)
    subst hrest
    have hwne : w ≠ [] := by simpa using hne
    simp only [List.map_nil, mergeLoop, joinDocs_nospace w hw hwne, List.append_nil]
    exact (hardSplit_short w hwlen).symm
  | succ m ih =>
    intro rest w hn hw hr hwlen hne
    cases rest with
    | nil =>
      have hwne : w ≠ [] := by simpa using hne
      simp only [List.map_nil, mergeLoop, joinDocs_nospace w hw hwne, List.append_nil]
      exact (hardSplit_short w hwlen).symm
    | cons d rest2 =>
      have hd : isPySpace d = false := hr d (by simp)
      have hr2 : ∀ c ∈ rest2, isPySpace c = false := fun c hc => hr c (by simp [hc])
      have hps : (pySingle d).length = 1 := rfl
      simp only [List.map_cons, mergeLoop, List.length_nil, ite_self, hps]
      by_cases hfull : 1200 < w.length + 1
      · have hw1200 : w.length = 1200 := by omega
        have hwne : w ≠ [] := by
          intro hw0
          rw [hw0] at hw1200
          simp at hw1200
        have hmapne : ¬ w.map pySingle = [] := by
          simpa using hwne
        rw [if_pos (by omega), if_neg hmapne, if_neg hmapne]
        rw [joinDocs_nospace w hw hwne]
        rw [mergeWhileChars w]
        dsimp only
        have hw2 : ∀ c ∈ w.drop 1000 ++ [d], isPySpace c = false := by
          intro c hc
          rcases List.mem_append.mp hc with hc | hc
          · exact hw c (List.mem_of_mem_drop hc)
          · rw [List.mem_singleton.mp hc]
            exact hd
        have hcur : (w.drop (w.length - 200)).map pySingle ++ [pySingle d] =
            (w.drop 1000 ++ [d]).map pySingle := by
          rw [hw1200]
          simp
        have htot : min w.length 200 + 1 + 0 = (w.drop 1000 ++ [d]).length := by
          simp only [List.length_append, List.length_drop, List.length_cons,
            List.length_nil]
          omega
        rw [hcur, htot, ih rest2 (w.drop 1000 ++ [d]) (by
            simp only [List.length_cons] at hn
            omega) hw2 hr2 (by
            rw [List.length_append, List.length_drop, hw1200]
            simp) (by simp)]
        rw [hardSplit_eq (w ++ d :: rest2) (by
          rw [List.length_append, hw1200]
          simp)]
        have htake : (w ++ d :: rest2).take 1200 = w := by
          rw [List.take_append_eq_append_take, List.take_of_length_le (by omega),
            hw1200]
          simp
        have hdrop : (w ++ d :: rest2).drop 1000 = w.drop 1000 ++ d :: rest2 := by
          rw [List.drop_append_eq_append_drop, hw1200]
          simp
        rw [htake, hdrop]
        simp [List.append_assoc]
      · rw [if_neg (by omega)]
        have hw2 : ∀ c ∈ w ++ [d], isPySpace c = false := by
          intro c hc
          rcases List.mem_append.mp hc with hc | hc
          · exact hw c hc
          · rw [List.mem_singleton.mp hc]
            exact hd
        have hcur : w.map pySingle ++ [pySingle d] = (w ++ [d]).map pySingle := by
          simp
        have htot : w.length + 1 + 0 = (w ++ [d]).length := by
          simp
        rw [hcur, htot, ih rest2 (w ++ [d]) (by
            simp only [List.length_cons] at hn
            omega) hw2 hr2 (by
            rw [List.length_append]
            simp only [List.length_cons, List.length_nil]
            omega) (by simp)]
        simp [List.append_assoc]

theorem splitKeepSep_nil_eq (text : List Char) :
    splitKeepSep [] text = text.map pySingle := by
  unfold splitKeepSep
  apply List.filter_eq_self.mpr
  intro p hp
  obtain ⟨c, _, rfl⟩ := List.mem_map.mp hp
  exact decide_eq_true (by simp [pySingle])

theorem split_text_nospace_hard (text : List Char)
    (h : ∀ c ∈ text, isPySpace c = false) (hne : text ≠ []) :
    split_text 1200 200 text = hardSplit text := by
  unfold split_text
  rcases chooseSep_spec SEPARATORS text (by decide) with
    hc | ⟨s, rest, hc, hsne, hm, hlt, hsub, hsmem⟩
  · show splitTextAux 1200 200 (3 + 1) SEPARATORS text = hardSplit text
    simp only [splitTextAux]
    rw [hc]
    dsimp only
    rw [goSplits_allgood 1200 200 _ _ (splitKeepSep [] text) [] (fun p hp => by
      rw [splitKeepSep_nil_mem_length text p hp]
      omega)]
    simp only [List.nil_append]
    unfold mergeSplits
    rw [splitKeepSep_nil_eq text]
    have hmain := mergeLoop_chars_hard text.length text [] (le_refl _) (by simp) h
      (by simp) (by simpa using hne)
    simpa using hmain
  · exfalso
    have hex : ∃ c ∈ s, isPySpace c = true := by
      have hs4 : s = ['\n', '\n'] ∨ s = ['\n'] ∨ s = [' '] ∨ s = [] := by
        simpa [SEPARATORS] using hsmem
      rcases hs4 with rfl | rfl | rfl | rfl
      · exact ⟨'\n', by simp, by decide⟩
      · exact ⟨'\n', by simp, by decide⟩
      · exact ⟨' ', by simp, by decide⟩
      · exact absurd rfl hsne
    obtain ⟨c, hcs, hcsp⟩ := hex
    have hc2 : c ∈ text := isSubstring_subset s text hsub c hcs
    rw [h c hc2] at hcsp
    exact Bool.noConfusion hcsp

theorem hardSplit_adjacent : ∀ (fuel : Nat) (t : List Char), t.length ≤ fuel →
    ∀ (i : Nat) (hi : i + 1 < (hardSplit t).length),
      ((hardSplit t).get ⟨i, by omega⟩).length = 1200 ∧
        ((hardSplit t).get ⟨i, by omega⟩).drop 1000 =
          ((hardSplit t).get ⟨i + 1, hi⟩).take 200 := by
  intro fuel
  induction fuel with
  | zero =>
    intro t ht i hi
    have ht0 : t = [] := List.eq_nil_of_length_eq_zero (Nat.le_zero.mp ht)
    subst ht0
    rw [hardSplit_short [] (by simp)] at hi
    simp at hi
  | succ f ih =>
    intro t ht i hi
    by_cases hlen : t.length ≤ 1200
    · rw [hardSplit_short t hlen] at hi
      simp at hi
    · push_neg at hlen
      have heq := hardSplit_eq t hlen
      cases i with
      | zero =>
        constructor
        · rw [List.get_of_eq heq]
          show (t.take 1200).length = 1200
          rw [List.length_take]
          omega
        · rw [List.get_of_eq heq, List.get_of_eq heq]
          have h1 : 0 < (hardSplit (t.drop 1000)).length := by
            rw [heq] at hi
            simp only [List.length_cons] at hi
            omega
          show (t.take 1200).drop 1000 =
            ((hardSplit (t.drop 1000)).get ⟨0, h1⟩).take 200
          rw [hardSplit_head (t.drop 1000) h1, List.drop_take, List.take_take]
          norm_num
      | succ j =>
        have hi2 : j + 1 < (hardSplit (t.drop 1000)).length := by
          rw [heq] at hi
          simpa using hi
        have hrec := ih (t.drop 1000) (by
          rw [List.length_drop]
          omega) j hi2
        constructor
        · rw [List.get_of_eq heq]
          exact hrec.1
        · rw [List.get_of_eq heq, List.get_of_eq heq]
          exact hrec.2

/-! ### Claim C6 -/

/-- C6: on a document with no natural boundary at all (no whitespace
character, so no paragraph break, line break or word break can force a
shorter cut) and length above `chunk_size = 1200`, every chunk except the
last has exactly 1200 characters and consecutive chunks overlap in exactly
`overlap = 200` characters: the last 200 characters of a chunk (its
`drop 1000`) are precisely the first 200 of the next. -/
theorem split_text_hard_cut_overlap (text : List Char)
    (hlen : 1200 < text.length) (hws : ∀ c ∈ text, isPySpace c = false)
    (i : Nat) (hi : i + 1 < (split_text 1200 200 text).length) :
    ((split_text 1200 200 text).get ⟨i, by omega⟩).length = 1200 ∧
      ((split_text 1200 200 text).get ⟨i, by omega⟩).drop 1000 =
        ((split_text 1200 200 text).get ⟨i + 1, hi⟩).take 200 := by
  have hne : text ≠ [] := by
    intro h0
    rw [h0] at hlen
    simp at hlen
  have hh := split_text_nospace_hard text hws hne
  have hi2 : i + 1 < (hardSplit text).length := by
    rw [← hh]
    exact hi
  have hrec := hardSplit_adjacent text.length text (le_refl _) i hi2
  constructor
  · rw [List.get_of_eq hh]
    exact hrec.1
  · rw [List.get_of_eq hh, List.get_of_eq hh]
    exact hrec.2

theorem split_text_hard_cut_overlap_witness :
    ∃ hi : 0 + 1 < (split_text 1200 200 (List.replicate 1201 'a')).length,
      ((split_text 1200 200 (List.replicate 1201 'a')).get ⟨0, by omega⟩).length = 1200 ∧
        ((split_text 1200 200 (List.replicate 1201 'a')).get ⟨0, by omega⟩).drop 1000 =
          ((split_text 1200 200 (List.replicate 1201 'a')).get ⟨0 + 1, hi⟩).take 200 := by
  have hws : ∀ c ∈ List.replicate 1201 'a', isPySpace c = false := by
    intro c hc
    rw [List.eq_of_mem_replicate hc]
    decide
  have hlen : 1200 < (List.replicate 1201 'a').length := by simp
  have hh := split_text_nospace_hard (List.replicate 1201 'a') hws (by simp)
  have hl2 : (split_text 1200 200 (List.replicate 1201 'a')).length = 2 := by
    rw [hh]
    decide
  refine ⟨by omega, ?_⟩
  exact split_text_hard_cut_overlap (List.replicate 1201 'a') hlen hws 0 (by omega)
